import Mathlib

/-!
Shallow embedding of the Hammer video-editor core (time-range algebra,
render plans, export orchestration, short-candidate gating) and proofs of
the spec's testable properties.

JavaScript `number` values carrying milliseconds are modelled as `Int`:
every operation used by the embedded code (`+`, `-`, `Math.max`, `Math.min`,
comparisons) is exact on integers, and `Number.isFinite` is identically
true in this model.
-/

namespace Hammer

/-- `CutRangeMs` from `src/core/types/render.ts`: a millisecond interval
`{ inMs, outMs }` on the source timeline. -/
structure CutRangeMs where
  inMs : Int
  outMs : Int
deriving DecidableEq, Repr

/-- Clamping step of `normalizeCuts` (`src/core/time/ranges.ts`):
`inMs`/`outMs` are both clamped into `[0, maxDuration]` via
`Math.max(0, Math.min(x, maxDuration))`. -/
def clampCut (maxDuration : Int) (cut : CutRangeMs) : CutRangeMs :=
  { inMs := max 0 (min cut.inMs maxDuration)
    outMs := max 0 (min cut.outMs maxDuration) }

/-- The comparator passed to `Array.prototype.sort` in `normalizeCuts`:
ascending by `inMs`, ties broken by `outMs`. -/
def cutLE (a b : CutRangeMs) : Bool :=
  decide (a.inMs < b.inMs ∨ (a.inMs = b.inMs ∧ a.outMs ≤ b.outMs))

/-- Insertion step of the sort modelling `Array.prototype.sort(cutLE)`. -/
def insertCut (c : CutRangeMs) : List CutRangeMs → List CutRangeMs
  | [] => [c]
  | x :: rest => if cutLE c x then c :: x :: rest else x :: insertCut c rest

/-- `Array.prototype.sort` with the `cutLE` comparator. `cutLE` is a total,
transitive, antisymmetric comparison, so the sorted rearrangement of a list
is unique and any correct sorting algorithm (this insertion sort, or the
engine's sort) produces the same list. -/
def sortCuts : List CutRangeMs → List CutRangeMs
  | [] => []
  | c :: rest => insertCut c (sortCuts rest)

/-- The merge loop of `normalizeCuts`: `last` is the range currently being
grown (the JS code mutates `last.outMs` in place); a cut whose `inMs` is at
or before `last.outMs` is coalesced into it. -/
def mergeLoop : CutRangeMs → List CutRangeMs → List CutRangeMs
  | last, [] => [last]
  | last, cut :: rest =>
    if cut.inMs ≤ last.outMs then
      mergeLoop { inMs := last.inMs, outMs := max last.outMs cut.outMs } rest
    else
      last :: mergeLoop cut rest

/-- Entry into the merge loop: an empty sorted list merges to the empty
list, otherwise the first cut seeds the loop. -/
def mergeStart : List CutRangeMs → List CutRangeMs
  | [] => []
  | cut :: rest => mergeLoop cut rest

/-- `normalizeCuts(cuts, durationMs)` from `src/core/time/ranges.ts`:
clamp into `[0, maxDuration]`, drop empty ranges, sort, coalesce.
(The `Number.isFinite` filter conditions are identically true on `Int`.) -/
def normalizeCuts (cuts : List CutRangeMs) (durationMs : Int) : List CutRangeMs :=
  let maxDuration := if 0 < durationMs then durationMs else 0
  mergeStart
    (sortCuts
      ((cuts.map (clampCut maxDuration)).filter
        (fun cut => decide (cut.inMs < cut.outMs))))

/-- `computeKeptDurationMs(durationMs, normalizedCuts)` from
`src/core/time/ranges.ts`. -/
def computeKeptDurationMs (durationMs : Int) (normalizedCuts : List CutRangeMs) : Int :=
  let maxDuration := if 0 < durationMs then durationMs else 0
  let removed := normalizedCuts.foldl (fun sum cut => sum + (cut.outMs - cut.inMs)) 0
  let kept := maxDuration - removed
  if 0 < kept then kept else 0

/-- The cursor loop of `computeKeptRanges` (`src/core/time/keptRanges.ts`):
emits the gap before each cut, advances the cursor with
`Math.max(cursor, cut.outMs)`, and emits the trailing gap. -/
def keptGo (maxDuration : Int) : Int → List CutRangeMs → List CutRangeMs
  | cursor, [] =>
    if cursor < maxDuration then [{ inMs := cursor, outMs := maxDuration }] else []
  | cursor, cut :: rest =>
    (if cut.inMs > cursor then [CutRangeMs.mk cursor cut.inMs] else []) ++
      keptGo maxDuration (max cursor cut.outMs) rest

/-- `computeKeptRanges(durationMs, normalizedCuts)` from
`src/core/time/keptRanges.ts`. -/
def computeKeptRanges (durationMs : Int) (normalizedCuts : List CutRangeMs) : List CutRangeMs :=
  let maxDuration := if 0 < durationMs then durationMs else 0
  if maxDuration = 0 then []
  else if normalizedCuts.isEmpty then [{ inMs := 0, outMs := maxDuration }]
  else keptGo maxDuration 0 normalizedCuts

/-- `computeKeptDurationFromRanges(ranges)` from `src/core/time/keptRanges.ts`:
`reduce((sum, range) => sum + Math.max(0, range.outMs - range.inMs), 0)`. -/
def computeKeptDurationFromRanges (ranges : List CutRangeMs) : Int :=
  ranges.foldl (fun sum range => sum + max 0 (range.outMs - range.inMs)) 0

/-- The accumulation loop of `mapSourceMsToKeptMs`. -/
def mapSrcGo (sourceMs : Int) : Int → List CutRangeMs → Option Int
  | _, [] => none
  | offset, range :: rest =>
    if sourceMs < range.inMs then none
    else if sourceMs ≤ range.outMs then some (offset + (sourceMs - range.inMs))
    else mapSrcGo sourceMs (offset + (range.outMs - range.inMs)) rest

/-- `mapSourceMsToKeptMs(sourceMs, keptRanges)` from
`src/core/time/keptRanges.ts`; `null` is `none`. -/
def mapSourceMsToKeptMs (sourceMs : Int) (keptRanges : List CutRangeMs) : Option Int :=
  if sourceMs < 0 then none else mapSrcGo sourceMs 0 keptRanges

/-- The accumulation loop of `mapKeptMsToSourceMs`. -/
def mapKeptGo (keptMs : Int) : Int → List CutRangeMs → Option Int
  | _, [] => none
  | offset, range :: rest =>
    let span := range.outMs - range.inMs
    if keptMs ≤ offset + span then some (range.inMs + (keptMs - offset))
    else mapKeptGo keptMs (offset + span) rest

/-- `mapKeptMsToSourceMs(keptMs, keptRanges)` from
`src/core/time/keptRanges.ts`; `null` is `none`. -/
def mapKeptMsToSourceMs (keptMs : Int) (keptRanges : List CutRangeMs) : Option Int :=
  if keptMs < 0 then none else mapKeptGo keptMs 0 keptRanges

/-- Render-plan mode, `"full" | "clip"`. -/
inductive RenderMode where
  | full
  | clip
deriving DecidableEq, Repr

/-- `RenderPlan`. The `mode`/`clipRangeMs` fields are the ones consumed by
`computeKeptRangesForPlan` in `src/core/time/keptRanges.ts` and produced by
`buildRenderPlan`/`buildClipPlan` in `src/ui/pages/EditorPage.tsx`; the
spec's §3 data model lists the same shape. -/
structure RenderPlan where
  sourceAssetId : String
  sourceDurationMs : Int
  cuts : List CutRangeMs
  mode : RenderMode
  clipRangeMs : Option CutRangeMs := none
deriving DecidableEq, Repr

/-- `computeKeptRangesForPlan(plan)` from `src/core/time/keptRanges.ts`. -/
def computeKeptRangesForPlan (plan : RenderPlan) : List CutRangeMs :=
  match plan.mode with
  | .clip =>
    match plan.clipRangeMs with
    | none => []
    | some clip =>
      let maxDuration := if 0 < plan.sourceDurationMs then plan.sourceDurationMs else 0
      if maxDuration = 0 then []
      else
        let inMs := max 0 (min clip.inMs maxDuration)
        let outMs := max 0 (min clip.outMs maxDuration)
        if outMs ≤ inMs then [] else [{ inMs := inMs, outMs := outMs }]
  | .full => computeKeptRanges plan.sourceDurationMs plan.cuts

/-- `AssetRef` from `src/core/types/project.ts`. -/
structure AssetRef where
  providerId : String
  assetId : String
deriving DecidableEq, Repr

/-- The `source` field of `ProjectDoc` (`src/core/types/project.ts`). -/
structure ProjectSource where
  asset : AssetRef
  filename : String
  durationMs : Int
  width : Int
  height : Int
deriving DecidableEq, Repr

/-- `Cut` from `src/core/types/project.ts`. -/
structure Cut where
  id : String
  inMs : Int
  outMs : Int
  label : Option String := none
deriving DecidableEq, Repr

/-- The `edl` field of `ProjectDoc`. -/
structure Edl where
  cuts : List Cut
deriving DecidableEq, Repr

/-- The fields of `ProjectDoc` consumed by the render-plan builders. -/
structure ProjectDoc where
  projectId : String
  source : ProjectSource
  edl : Edl
deriving DecidableEq, Repr

/-- `buildClipPlan(project, cut)` from `src/ui/pages/EditorPage.tsx`:
a `"clip"`-mode plan with an empty `cuts` list and `clipRangeMs` set to
exactly the given cut's span. -/
def buildClipPlan (project : ProjectDoc) (cut : Cut) : RenderPlan :=
  { sourceAssetId := project.source.asset.assetId
    sourceDurationMs := project.source.durationMs
    cuts := []
    mode := .clip
    clipRangeMs := some { inMs := cut.inMs, outMs := cut.outMs } }

/-- `buildRenderPlan(project)` from `src/ui/pages/EditorPage.tsx`:
a `"full"`-mode plan over the project's normalized cuts. -/
def buildRenderPlan (project : ProjectDoc) : RenderPlan :=
  let durationMs := project.source.durationMs
  let cutRanges := project.edl.cuts.map (fun cut => CutRangeMs.mk cut.inMs cut.outMs)
  { sourceAssetId := project.source.asset.assetId
    sourceDurationMs := durationMs
    cuts := normalizeCuts cutRanges durationMs
    mode := .full }

/-- The `engine` tag of an encode outcome
(`"webcodecs" | "mediaRecorder" | "placeholder"`). -/
inductive ExportEngine where
  | webcodecs
  | mediaRecorder
  | placeholder
deriving DecidableEq, Repr

/-- `ExportContainer` = `"webm" | "mp4"`. -/
inductive ExportContainer where
  | webm
  | mp4
deriving DecidableEq, Repr

/-- `ExportPreset` = `"draft" | "standard" | "high"`. -/
inductive ExportPreset where
  | draft
  | standard
  | high
deriving DecidableEq, Repr

/-- `ExportRequest` (the fields the export orchestrator consumes). -/
structure ExportRequest where
  container : ExportContainer
  preset : ExportPreset
  includeAudio : Bool := true
deriving DecidableEq, Repr

/-- What a backend hands back to `encodeWithFallbacks`: `{ blob, mime,
engine }` with the blob's media bytes treated as opaque. -/
structure EncodeOutcome where
  mime : String
  engine : ExportEngine
deriving DecidableEq, Repr

/-- `createPlaceholderExport(plan, keptDurationMs, container)` from
`src/features/export/engines/placeholder.ts`: a total function (it builds a
small diagnostic payload and never throws), always tagged `placeholder`. -/
def createPlaceholderExport (plan : RenderPlan) (keptDurationMs : Int)
    (container : ExportContainer) : EncodeOutcome :=
  let _payload :=
    String.intercalate "\n"
      ["HAMMER_EXPORT_PLACEHOLDER",
       "source=" ++ plan.sourceAssetId,
       "cuts=" ++ toString plan.cuts.length,
       "durationMs=" ++ toString keptDurationMs]
  { mime := if container = .webm then "video/webm" else "video/mp4"
    engine := .placeholder }

/-- The asynchronous, browser-bound collaborators of the export
orchestrator (`src/features/export/exportFull.ts`), abstracted as data:
the WebCodecs capability probe, the two real encoding backends (returning
the produced mime on success, or throwing — `Except.error`), the current
`Date().toISOString()` value, and the storage collaborator's `putAsset`
(filename to new asset id). Their TS return types pin the `engine` tag of
each backend's successful outcome, which is why the backends here return
only the mime string. -/
structure EncodeEnv where
  canEncodeWebmWithWebCodecs : Bool
  webcodecsWebm : RenderPlan → ExportRequest → Except String String
  mediaRecorder : RenderPlan → ExportRequest → Except String String
  nowIso : String
  putAssetId : String → String

/-- `encodeWithFallbacks` from `src/features/export/exportFull.ts`: try
WebCodecs only when the request is for webm and the capability probe
passes; on any failure fall through to MediaRecorder; on its failure fall
back to the placeholder (which cannot fail). -/
def encodeWithFallbacks (env : EncodeEnv) (plan : RenderPlan) (request : ExportRequest)
    (keptDurationMs : Int) : EncodeOutcome :=
  let mediaRecorderOrPlaceholder : EncodeOutcome :=
    match env.mediaRecorder plan request with
    | .ok mime => { mime := mime, engine := .mediaRecorder }
    | .error _ => createPlaceholderExport plan keptDurationMs request.container
  if request.container = .webm ∧ env.canEncodeWebmWithWebCodecs = true then
    match env.webcodecsWebm plan request with
    | .ok mime => { mime := mime, engine := .webcodecs }
    | .error _ => mediaRecorderOrPlaceholder
  else mediaRecorderOrPlaceholder

/-- `mime.split(";")[0]?.trim()` as used by `containerForMime` and
`extensionForMime`. -/
def mimeBase (mime : String) : String :=
  ((mime.splitOn ";").headD "").trim

/-- `containerForMime(mime)` from `src/features/export/exportFull.ts`. -/
def containerForMime (mime : String) : ExportContainer :=
  if mimeBase mime = "video/webm" then .webm else .mp4

/-- `extensionForMime(mime)` from `src/features/export/exportFull.ts`. -/
def extensionForMime (mime : String) : String :=
  if mimeBase mime = "video/webm" then "webm" else "mp4"

/-- `buildFilename(mime)`; the `new Date().toISOString()` value is passed
in explicitly, and the `/[:.]/g → "-"` replacement is `String.map`. -/
def buildFilename (nowIso : String) (mime : String) : String :=
  let stamp := nowIso.map (fun ch => if ch = ':' ∨ ch = '.' then '-' else ch)
  "hammer_export_" ++ stamp ++ "." ++ extensionForMime mime

/-- `ExportResult` (the fields `exportFull` computes; the blob byte count
and codec metadata are opaque here). -/
structure ExportResult where
  assetId : String
  container : ExportContainer
  filename : String
  durationMs : Int
  mime : String
  engine : ExportEngine
deriving Repr

/-- `exportFull(plan, storage, request, onPhase)` from
`src/features/export/exportFull.ts` with its awaited collaborators
abstracted into `env`. In `preparing` it computes
`computeKeptDurationMs(plan.sourceDurationMs, plan.cuts)` — note: from
`plan.cuts`, with no dispatch on `plan.mode` — and that value becomes the
returned `durationMs`; `encoding` is `encodeWithFallbacks`; `saving`
builds the filename and stores the file. -/
def exportFull (env : EncodeEnv) (plan : RenderPlan) (request : ExportRequest) : ExportResult :=
  let keptDurationMs := computeKeptDurationMs plan.sourceDurationMs plan.cuts
  let encoded := encodeWithFallbacks env plan request keptDurationMs
  let filename := buildFilename env.nowIso encoded.mime
  let assetId := env.putAssetId filename
  { assetId := assetId
    container := containerForMime encoded.mime
    filename := filename
    durationMs := keptDurationMs
    mime := encoded.mime
    engine := encoded.engine }

/-- `TranscriptSegment` from `src/core/types/project.ts`; `endMs` is an
optional field. -/
structure TranscriptSegment where
  id : String
  startMs : Int
  endMs : Option Int := none
  text : String
deriving DecidableEq, Repr

/-- `Transcript` from `src/core/types/project.ts`. -/
structure Transcript where
  segments : List TranscriptSegment
deriving DecidableEq, Repr

/-- The predicate `segment.endMs > segment.startMs` of
`hasTimestampedTranscript`; a missing `endMs` compares false in JS. -/
def segmentEndAfterStart (segment : TranscriptSegment) : Bool :=
  match segment.endMs with
  | some e => decide (segment.startMs < e)
  | none => false

/-- `hasTimestampedTranscript` from `src/ui/pages/EditorPage.tsx`:
`segments.some((segment) => segment.endMs > segment.startMs)`. -/
def hasTimestampedTranscript (segments : List TranscriptSegment) : Bool :=
  segments.any segmentEndAfterStart

/-- `ShortSuggestion` (the fields the UI consumes). -/
structure ShortSuggestion where
  id : String
  startMs : Int
  endMs : Int
  score : Int
  title : String
deriving DecidableEq, Repr

/-- The observable outcome of `handleGenerateShorts`: the blocked state
(`setShortsError(...)` plus cleared suggestions, before the engine runs),
a successful suggestion list, or a caught engine error. -/
inductive ShortsOutcome where
  | blocked (message : String)
  | generated (suggestions : List ShortSuggestion)
  | failed (message : String)
deriving DecidableEq, Repr

/-- `handleGenerateShorts` from `src/ui/pages/EditorPage.tsx`. The guard is
`if (!project.transcript || shortsBlocked)` with
`shortsBlocked = !hasTimestampedTranscript`; only past the guard does it
call `generateShortSuggestions` (the engine, an external collaborator
here) inside try/catch. -/
def handleGenerateShorts (transcript : Option Transcript)
    (generateShortSuggestions : Transcript → Except String (List ShortSuggestion)) :
    ShortsOutcome :=
  match transcript with
  | none => .blocked "Need VTT/SRT timestamps."
  | some t =>
    if hasTimestampedTranscript t.segments then
      match generateShortSuggestions t with
      | .ok suggestions => .generated suggestions
      | .error message => .failed message
    else .blocked "Need VTT/SRT timestamps."

/-! ### Structure of `normalizeCuts` output -/

theorem cutLE_trans (a b c : CutRangeMs) (hab : cutLE a b = true) (hbc : cutLE b c = true) :
    cutLE a c = true := by
  simp only [cutLE, decide_eq_true_eq] at hab hbc ⊢
  omega

theorem cutLE_total (a b : CutRangeMs) : cutLE a b = true ∨ cutLE b a = true := by
  simp only [cutLE, decide_eq_true_eq]
  omega

theorem mem_insertCut {x c : CutRangeMs} {l : List CutRangeMs} :
    x ∈ insertCut c l ↔ x = c ∨ x ∈ l := by
  induction l with
  | nil => simp [insertCut]
  | cons y rest ih =>
    by_cases h : cutLE c y = true
    · simp [insertCut, h]
    · simp only [insertCut, if_neg h, List.mem_cons, ih]
      tauto

theorem mem_sortCuts {x : CutRangeMs} {l : List CutRangeMs} :
    x ∈ sortCuts l ↔ x ∈ l := by
  induction l with
  | nil => simp [sortCuts]
  | cons c rest ih => simp [sortCuts, mem_insertCut, ih]

theorem insertCut_pairwise {c : CutRangeMs} {l : List CutRangeMs}
    (hl : l.Pairwise (fun a b => cutLE a b = true)) :
    (insertCut c l).Pairwise (fun a b => cutLE a b = true) := by
  induction l with
  | nil => simp [insertCut]
  | cons y rest ih =>
    rcases List.pairwise_cons.mp hl with ⟨hy, hrest⟩
    by_cases h : cutLE c y = true
    · rw [insertCut, if_pos h]
      refine List.pairwise_cons.mpr ⟨?_, hl⟩
      intro b hb
      rcases List.mem_cons.mp hb with rfl | hb
      · exact h
      · exact cutLE_trans c y b h (hy b hb)
    · rw [insertCut, if_neg h]
      refine List.pairwise_cons.mpr ⟨?_, ih hrest⟩
      intro b hb
      rcases mem_insertCut.mp hb with hbc | hb
      · rw [hbc]
        exact (cutLE_total c y).resolve_left h
      · exact hy b hb

theorem sortCuts_pairwise (l : List CutRangeMs) :
    (sortCuts l).Pairwise (fun a b => cutLE a b = true) := by
  induction l with
  | nil => simp [sortCuts]
  | cons c rest ih => exact insertCut_pairwise ih

theorem sortCuts_of_pairwise {l : List CutRangeMs}
    (hl : l.Pairwise (fun a b => cutLE a b = true)) : sortCuts l = l := by
  induction l with
  | nil => rfl
  | cons c rest ih =>
    rcases List.pairwise_cons.mp hl with ⟨hc, hrest⟩
    rw [sortCuts, ih hrest]
    cases rest with
    | nil => rfl
    | cons y rest2 => rw [insertCut, if_pos (hc y (List.mem_cons_self _ _))]

theorem mergeLoop_inMs_le {l : List CutRangeMs} :
    ∀ {last r : CutRangeMs}, (∀ c ∈ l, last.inMs ≤ c.inMs) →
      l.Pairwise (fun a b => a.inMs ≤ b.inMs) →
      r ∈ mergeLoop last l → last.inMs ≤ r.inMs := by
  induction l with
  | nil =>
    intro last r _ _ hr
    rw [mergeLoop, List.mem_singleton] at hr
    subst hr
    exact le_refl _
  | cons cut rest ih =>
    intro last r h hs hr
    rw [mergeLoop] at hr
    rcases List.pairwise_cons.mp hs with ⟨hcut, hrest⟩
    by_cases hc : cut.inMs ≤ last.outMs
    · rw [if_pos hc] at hr
      exact @ih ⟨last.inMs, max last.outMs cut.outMs⟩ r
        (fun x hx => h x (List.mem_cons_of_mem _ hx)) hrest hr
    · rw [if_neg hc] at hr
      rcases List.mem_cons.mp hr with rfl | hr
      · exact le_refl _
      · exact le_trans (h cut (List.mem_cons_self _ _)) (ih hcut hrest hr)

theorem mergeLoop_bounds {M : Int} {l : List CutRangeMs} :
    ∀ {last r : CutRangeMs},
      (0 ≤ last.inMs ∧ last.inMs < last.outMs ∧ last.outMs ≤ M) →
      (∀ c ∈ l, 0 ≤ c.inMs ∧ c.inMs < c.outMs ∧ c.outMs ≤ M) →
      r ∈ mergeLoop last l → 0 ≤ r.inMs ∧ r.inMs < r.outMs ∧ r.outMs ≤ M := by
  induction l with
  | nil =>
    intro last r hlast _ hr
    rw [mergeLoop, List.mem_singleton] at hr
    subst hr
    exact hlast
  | cons cut rest ih =>
    intro last r hlast h hr
    rw [mergeLoop] at hr
    have hcb := h cut (List.mem_cons_self _ _)
    by_cases hc : cut.inMs ≤ last.outMs
    · rw [if_pos hc] at hr
      have hlast2 : 0 ≤ last.inMs ∧ last.inMs < max last.outMs cut.outMs ∧
          max last.outMs cut.outMs ≤ M := by omega
      exact @ih ⟨last.inMs, max last.outMs cut.outMs⟩ r hlast2
        (fun x hx => h x (List.mem_cons_of_mem _ hx)) hr
    · rw [if_neg hc] at hr
      rcases List.mem_cons.mp hr with rfl | hr
      · exact hlast
      · exact ih hcb (fun x hx => h x (List.mem_cons_of_mem _ hx)) hr

theorem mergeLoop_gap {l : List CutRangeMs} :
    ∀ {last : CutRangeMs}, (∀ c ∈ l, last.inMs ≤ c.inMs) →
      l.Pairwise (fun a b => a.inMs ≤ b.inMs) →
      (mergeLoop last l).Pairwise (fun a b => a.outMs < b.inMs) := by
  induction l with
  | nil =>
    intro last _ _
    simp [mergeLoop]
  | cons cut rest ih =>
    intro last h hs
    rw [mergeLoop]
    rcases List.pairwise_cons.mp hs with ⟨hcut, hrest⟩
    by_cases hc : cut.inMs ≤ last.outMs
    · rw [if_pos hc]
      exact @ih ⟨last.inMs, max last.outMs cut.outMs⟩
        (fun x hx => h x (List.mem_cons_of_mem _ hx)) hrest
    · rw [if_neg hc]
      refine List.pairwise_cons.mpr ⟨?_, ih hcut hrest⟩
      intro r hr
      have := mergeLoop_inMs_le hcut hrest hr
      omega

/-- The canonical-form invariant of `normalizeCuts`: output ranges are
pairwise separated in order, and each lies inside `[0, maxDuration]` with
positive span. -/
theorem normalizeCuts_good (cuts : List CutRangeMs) (d : Int) :
    (normalizeCuts cuts d).Pairwise (fun a b => a.outMs < b.inMs) ∧
      ∀ c ∈ normalizeCuts cuts d,
        0 ≤ c.inMs ∧ c.inMs < c.outMs ∧ c.outMs ≤ (if 0 < d then d else 0) := by
  rw [normalizeCuts]
  set M : Int := if 0 < d then d else 0 with hM
  have hM0 : 0 ≤ M := by rw [hM]; split <;> omega
  set L : List CutRangeMs :=
    (cuts.map (clampCut M)).filter (fun cut => decide (cut.inMs < cut.outMs)) with hL
  have hLbounds : ∀ c ∈ L, 0 ≤ c.inMs ∧ c.inMs < c.outMs ∧ c.outMs ≤ M := by
    intro c hc
    rw [hL, List.mem_filter] at hc
    rcases hc with ⟨hmem, hfil⟩
    rcases List.mem_map.mp hmem with ⟨x, _, rfl⟩
    rw [decide_eq_true_eq] at hfil
    simp only [clampCut] at hfil ⊢
    omega
  have hsorted := sortCuts_pairwise L
  have hin : (sortCuts L).Pairwise (fun a b : CutRangeMs => a.inMs ≤ b.inMs) := by
    refine hsorted.imp ?_
    intro a b hab
    simp only [cutLE, decide_eq_true_eq] at hab
    omega
  have hmem : ∀ c ∈ sortCuts L, 0 ≤ c.inMs ∧ c.inMs < c.outMs ∧ c.outMs ≤ M :=
    fun c hc => hLbounds c (mem_sortCuts.mp hc)
  cases hEq : sortCuts L with
  | nil => simp [mergeStart]
  | cons c0 rest =>
    rw [hEq] at hin hmem
    rcases List.pairwise_cons.mp hin with ⟨hc0, hrest⟩
    constructor
    · exact mergeLoop_gap hc0 hrest
    · intro c hc
      exact mergeLoop_bounds (hmem c0 (List.mem_cons_self _ _))
        (fun x hx => hmem x (List.mem_cons_of_mem _ hx)) hc

/-! ### Structure of `computeKeptRanges` output -/

theorem keptGo_le_inMs (M : Int) :
    ∀ (cs : List CutRangeMs) (cursor : Int) (r : CutRangeMs),
      r ∈ keptGo M cursor cs → cursor ≤ r.inMs := by
  intro cs
  induction cs with
  | nil =>
    intro cursor r hr
    rw [keptGo] at hr
    split at hr
    · rw [List.mem_singleton] at hr
      subst hr
      exact le_refl _
    · exact absurd hr (List.not_mem_nil r)
  | cons cut rest ih =>
    intro cursor r hr
    rw [keptGo, List.mem_append] at hr
    rcases hr with h1 | h2
    · split at h1
      · rw [List.mem_singleton] at h1
        subst h1
        exact le_refl _
      · exact absurd h1 (List.not_mem_nil r)
    · exact le_trans (le_max_left _ _) (ih (max cursor cut.outMs) r h2)

theorem keptGo_good (M : Int) :
    ∀ (cs : List CutRangeMs) (cursor : Int), 0 ≤ cursor → cursor ≤ M →
      (∀ c ∈ cs, c.inMs < c.outMs ∧ c.outMs ≤ M) →
      (∀ r ∈ keptGo M cursor cs, cursor ≤ r.inMs ∧ r.inMs < r.outMs ∧ r.outMs ≤ M) ∧
        (keptGo M cursor cs).Pairwise (fun a b => a.outMs < b.inMs) := by
  intro cs
  induction cs with
  | nil =>
    intro cursor _ _ _
    rw [keptGo]
    split
    · constructor
      · intro r hr
        rw [List.mem_singleton] at hr
        subst hr
        refine ⟨le_refl _, ?_, le_refl _⟩
        show cursor < M
        omega
      · exact List.pairwise_singleton _ _
    · exact ⟨fun r hr => absurd hr (List.not_mem_nil r), List.Pairwise.nil⟩
  | cons cut rest ih =>
    intro cursor h0 hM hb
    have hcb := hb cut (List.mem_cons_self _ _)
    have h0' : 0 ≤ max cursor cut.outMs := by omega
    have hM' : max cursor cut.outMs ≤ M := by omega
    have hrest := ih (max cursor cut.outMs) h0' hM'
      (fun x hx => hb x (List.mem_cons_of_mem _ hx))
    rw [keptGo]
    constructor
    · intro r hr
      rw [List.mem_append] at hr
      rcases hr with h1 | h2
      · split at h1
        · rw [List.mem_singleton] at h1
          subst h1
          refine ⟨le_refl _, ?_, ?_⟩ <;> simp only <;> omega
        · exact absurd h1 (List.not_mem_nil r)
      · have := hrest.1 r h2
        refine ⟨?_, this.2.1, this.2.2⟩
        omega
    · rw [List.pairwise_append]
      refine ⟨?_, hrest.2, ?_⟩
      · split
        · exact List.pairwise_singleton _ _
        · exact List.Pairwise.nil
      · intro a ha b hb2
        have hbin := (hrest.1 b hb2).1
        split at ha
        · rw [List.mem_singleton] at ha
          subst ha
          simp only
          omega
        · exact absurd ha (List.not_mem_nil a)

theorem keptGo_avoid (M : Int) :
    ∀ (cs : List CutRangeMs) (cursor : Int),
      cs.Pairwise (fun a b => a.outMs < b.inMs) →
      (∀ c ∈ cs, c.inMs < c.outMs) →
      ∀ r ∈ keptGo M cursor cs, ∀ cut ∈ cs,
        r.outMs ≤ cut.inMs ∨ cut.outMs ≤ r.inMs := by
  intro cs
  induction cs with
  | nil =>
    intro cursor _ _ r _ cut hcut
    exact absurd hcut (List.not_mem_nil cut)
  | cons c rest ih =>
    intro cursor hp hb r hr cut hcut
    rcases List.pairwise_cons.mp hp with ⟨hc, hrest⟩
    rw [keptGo, List.mem_append] at hr
    rcases hr with h1 | h2
    · have hre : r = ⟨cursor, c.inMs⟩ := by
        split at h1
        · exact List.mem_singleton.mp h1
        · exact absurd h1 (List.not_mem_nil r)
      subst hre
      rcases List.mem_cons.mp hcut with rfl | hcut2
      · exact Or.inl (le_refl _)
      · have h3 := hc cut hcut2
        have h4 := hb c (List.mem_cons_self _ _)
        simp only
        omega
    · rcases List.mem_cons.mp hcut with rfl | hcut2
      · have := keptGo_le_inMs M rest (max cursor cut.outMs) r h2
        right
        omega
      · exact ih (max cursor c.outMs) hrest
          (fun x hx => hb x (List.mem_cons_of_mem _ hx)) r h2 cut hcut2

/-- The kept ranges of a normalized cut list are separated, in order, and
lie inside `[0, maxDuration]` with positive span. -/
theorem computeKeptRanges_good (d : Int) (cuts : List CutRangeMs) :
    (computeKeptRanges d (normalizeCuts cuts d)).Pairwise (fun a b => a.outMs < b.inMs) ∧
      ∀ r ∈ computeKeptRanges d (normalizeCuts cuts d),
        0 ≤ r.inMs ∧ r.inMs < r.outMs ∧ r.outMs ≤ (if 0 < d then d else 0) := by
  rcases normalizeCuts_good cuts d with ⟨hp, hb⟩
  rw [computeKeptRanges]
  set M : Int := if 0 < d then d else 0 with hM
  have hM0 : 0 ≤ M := by rw [hM]; split <;> omega
  by_cases hMz : M = 0
  · rw [if_pos hMz]
    exact ⟨List.Pairwise.nil, fun r hr => absurd hr (List.not_mem_nil r)⟩
  · rw [if_neg hMz]
    by_cases hE : (normalizeCuts cuts d).isEmpty
    · rw [if_pos hE]
      constructor
      · exact List.pairwise_singleton _ _
      · intro r hr
        rw [List.mem_singleton] at hr
        subst hr
        refine ⟨le_refl _, ?_, le_refl _⟩
        show (0 : Int) < M
        omega
    · rw [if_neg hE]
      have := keptGo_good M (normalizeCuts cuts d) 0 (le_refl 0) (by omega)
        (fun c hc => ⟨(hb c hc).2.1, (hb c hc).2.2⟩)
      exact ⟨this.2, fun r hr => (this.1 r hr)⟩

/-! ### Kept duration arithmetic -/

theorem foldl_span_shift (l : List CutRangeMs) :
    ∀ a : Int, l.foldl (fun sum cut => sum + (cut.outMs - cut.inMs)) a =
      a + l.foldl (fun sum cut => sum + (cut.outMs - cut.inMs)) 0 := by
  induction l with
  | nil => intro a; simp
  | cons c rest ih =>
    intro a
    rw [List.foldl_cons, List.foldl_cons, ih, ih (0 + (c.outMs - c.inMs))]
    omega

theorem foldl_kept_shift (l : List CutRangeMs) :
    ∀ a : Int, l.foldl (fun sum range => sum + max 0 (range.outMs - range.inMs)) a =
      a + l.foldl (fun sum range => sum + max 0 (range.outMs - range.inMs)) 0 := by
  induction l with
  | nil => intro a; simp
  | cons c rest ih =>
    intro a
    rw [List.foldl_cons, List.foldl_cons, ih, ih (0 + max 0 (c.outMs - c.inMs))]
    omega

theorem computeKeptDurationFromRanges_nonneg (l : List CutRangeMs) :
    0 ≤ computeKeptDurationFromRanges l := by
  induction l with
  | nil => simp [computeKeptDurationFromRanges]
  | cons c rest ih =>
    rw [computeKeptDurationFromRanges] at ih ⊢
    rw [List.foldl_cons, foldl_kept_shift]
    omega

theorem computeKeptDurationFromRanges_append (l₁ l₂ : List CutRangeMs) :
    computeKeptDurationFromRanges (l₁ ++ l₂) =
      computeKeptDurationFromRanges l₁ + computeKeptDurationFromRanges l₂ := by
  rw [computeKeptDurationFromRanges, computeKeptDurationFromRanges,
    computeKeptDurationFromRanges, List.foldl_append,
    foldl_kept_shift l₂ (List.foldl (fun sum range => sum + max 0 (range.outMs - range.inMs)) 0 l₁)]

theorem computeKeptDurationFromRanges_singleton (r : CutRangeMs) :
    computeKeptDurationFromRanges [r] = max 0 (r.outMs - r.inMs) := by
  show 0 + max 0 (r.outMs - r.inMs) = max 0 (r.outMs - r.inMs)
  omega

theorem keptGo_sum (M : Int) :
    ∀ (cs : List CutRangeMs) (cursor : Int), cursor ≤ M →
      (∀ c ∈ cs, c.inMs < c.outMs ∧ c.outMs ≤ M) →
      (∀ c ∈ cs, cursor ≤ c.inMs) →
      cs.Pairwise (fun a b => a.outMs < b.inMs) →
      computeKeptDurationFromRanges (keptGo M cursor cs) =
        (M - cursor) - cs.foldl (fun sum cut => sum + (cut.outMs - cut.inMs)) 0 := by
  intro cs
  induction cs with
  | nil =>
    intro cursor hM _ _ _
    rw [keptGo, List.foldl_nil]
    split
    · rw [computeKeptDurationFromRanges_singleton]
      show max 0 (M - cursor) = M - cursor - 0
      omega
    · show (0 : Int) = M - cursor - 0
      omega
  | cons c rest ih =>
    intro cursor hM hb hcur hp
    have hcb := hb c (List.mem_cons_self _ _)
    have hcc := hcur c (List.mem_cons_self _ _)
    rcases List.pairwise_cons.mp hp with ⟨hc, hrest⟩
    have hmax : max cursor c.outMs = c.outMs := by omega
    have hrec := ih (max cursor c.outMs) (by omega)
      (fun x hx => hb x (List.mem_cons_of_mem _ hx))
      (fun x hx => by have := hc x hx; omega) hrest
    rw [hmax] at hrec
    have hemit : computeKeptDurationFromRanges
        (if c.inMs > cursor then [CutRangeMs.mk cursor c.inMs] else []) =
        c.inMs - cursor := by
      split
      · rw [computeKeptDurationFromRanges_singleton]
        show max 0 (c.inMs - cursor) = c.inMs - cursor
        omega
      · show (0 : Int) = c.inMs - cursor
        omega
    have happ : computeKeptDurationFromRanges (keptGo M cursor (c :: rest)) =
        computeKeptDurationFromRanges
          (if c.inMs > cursor then [CutRangeMs.mk cursor c.inMs] else []) +
          computeKeptDurationFromRanges (keptGo M (max cursor c.outMs) rest) := by
      rw [keptGo, computeKeptDurationFromRanges_append]
    rw [hmax] at happ
    have hfold : (c :: rest).foldl (fun sum cut => sum + (cut.outMs - cut.inMs)) 0 =
        (0 + (c.outMs - c.inMs)) +
          rest.foldl (fun sum cut => sum + (cut.outMs - cut.inMs)) 0 := by
      rw [List.foldl_cons, foldl_span_shift rest (0 + (c.outMs - c.inMs))]
    omega

/-! ### The source/kept timeline maps -/

theorem mapSrcGo_shift (s : Int) :
    ∀ (rs : List CutRangeMs) (a b : Int),
      mapSrcGo s (a + b) rs = (mapSrcGo s b rs).map (fun x => a + x) := by
  intro rs
  induction rs with
  | nil => intro a b; rfl
  | cons r rest ih =>
    intro a b
    rw [mapSrcGo, mapSrcGo]
    by_cases h1 : s < r.inMs
    · rw [if_pos h1, if_pos h1]
      rfl
    · rw [if_neg h1, if_neg h1]
      by_cases h2 : s ≤ r.outMs
      · rw [if_pos h2, if_pos h2]
        show some (a + b + (s - r.inMs)) = some (a + (b + (s - r.inMs)))
        congr 1
        omega
      · rw [if_neg h2, if_neg h2]
        have : a + b + (r.outMs - r.inMs) = a + (b + (r.outMs - r.inMs)) := by omega
        rw [this, ih]

theorem mapKeptGo_shift (k : Int) :
    ∀ (rs : List CutRangeMs) (a b : Int),
      mapKeptGo k (a + b) rs = mapKeptGo (k - a) b rs := by
  intro rs
  induction rs with
  | nil => intro a b; rfl
  | cons r rest ih =>
    intro a b
    rw [mapKeptGo, mapKeptGo]
    by_cases h1 : k ≤ a + b + (r.outMs - r.inMs)
    · rw [if_pos h1, if_pos (by omega : k - a ≤ b + (r.outMs - r.inMs))]
      congr 1
      omega
    · rw [if_neg h1, if_neg (by omega : ¬ k - a ≤ b + (r.outMs - r.inMs))]
      have : a + b + (r.outMs - r.inMs) = a + (b + (r.outMs - r.inMs)) := by omega
      rw [this, ih]

theorem mapSrcGo_none (s : Int) :
    ∀ (rs : List CutRangeMs) (offset : Int),
      (∀ r ∈ rs, s < r.inMs ∨ r.outMs < s) → mapSrcGo s offset rs = none := by
  intro rs
  induction rs with
  | nil => intro offset _; rfl
  | cons r rest ih =>
    intro offset h
    have hr := h r (List.mem_cons_self _ _)
    rw [mapSrcGo]
    by_cases h1 : s < r.inMs
    · rw [if_pos h1]
    · rw [if_neg h1, if_neg (by omega : ¬ s ≤ r.outMs)]
      exact ih _ (fun x hx => h x (List.mem_cons_of_mem _ hx))

/-- Round trip through both maps for an instant strictly inside a member
of a separated, positive-span range list: the kept position is positive
and maps back to the instant. -/
theorem mapGo_roundtrip :
    ∀ (rs : List CutRangeMs),
      rs.Pairwise (fun a b => a.outMs < b.inMs) →
      (∀ x ∈ rs, x.inMs < x.outMs) →
      ∀ (s : Int) (r : CutRangeMs), r ∈ rs → r.inMs < s → s ≤ r.outMs →
        ∃ m, mapSrcGo s 0 rs = some m ∧ 0 < m ∧ mapKeptGo m 0 rs = some s := by
  intro rs
  induction rs with
  | nil =>
    intro _ _ s r hr
    exact absurd hr (List.not_mem_nil r)
  | cons r0 rest ih =>
    intro hp hb s r hr hin hout
    rcases List.pairwise_cons.mp hp with ⟨h0, hrest⟩
    have hb0 := hb r0 (List.mem_cons_self _ _)
    rcases List.mem_cons.mp hr with rfl | hr2
    · refine ⟨0 + (s - r.inMs), ?_, by omega, ?_⟩
      · rw [mapSrcGo, if_neg (by omega : ¬ s < r.inMs), if_pos hout]
      · rw [mapKeptGo, if_pos (by omega : 0 + (s - r.inMs) ≤ 0 + (r.outMs - r.inMs))]
        congr 1
        omega
    · have hgap := h0 r hr2
      have hs0 : r0.outMs < s := by omega
      rcases ih hrest (fun x hx => hb x (List.mem_cons_of_mem _ hx)) s r hr2 hin hout with
        ⟨m2, hm2, hm2pos, hk2⟩
      refine ⟨(r0.outMs - r0.inMs) + m2, ?_, by omega, ?_⟩
      · rw [mapSrcGo, if_neg (by omega : ¬ s < r0.inMs),
          if_neg (by omega : ¬ s ≤ r0.outMs)]
        have : (0 : Int) + (r0.outMs - r0.inMs) = (r0.outMs - r0.inMs) + 0 := by omega
        rw [this, mapSrcGo_shift, hm2]
        rfl
      · rw [mapKeptGo,
          if_neg (by omega :
            ¬ r0.outMs - r0.inMs + m2 ≤ 0 + (r0.outMs - r0.inMs))]
        have : (0 : Int) + (r0.outMs - r0.inMs) = (r0.outMs - r0.inMs) + 0 := by omega
        rw [this, mapKeptGo_shift]
        have : r0.outMs - r0.inMs + m2 - (r0.outMs - r0.inMs) = m2 := by omega
        rw [this, hk2]

/-- Round trip at the left endpoint of the first range of a range list
with nonnegative start and positive span: it maps to kept position `0` and
back. -/
theorem mapGo_roundtrip_head (r0 : CutRangeMs) (rest : List CutRangeMs)
    (hpos : r0.inMs < r0.outMs) :
    mapSrcGo r0.inMs 0 (r0 :: rest) = some 0 ∧
      mapKeptGo 0 0 (r0 :: rest) = some r0.inMs := by
  constructor
  · rw [mapSrcGo, if_neg (by omega : ¬ r0.inMs < r0.inMs),
      if_pos (by omega : r0.inMs ≤ r0.outMs)]
    congr 1
    omega
  · rw [mapKeptGo, if_pos (by omega : (0 : Int) ≤ 0 + (r0.outMs - r0.inMs))]
    congr 1
    omega

/-! ### Fixed points of the normalization pipeline -/

theorem mergeLoop_of_gapped :
    ∀ (l : List CutRangeMs) (c : CutRangeMs), (∀ x ∈ l, c.outMs < x.inMs) →
      l.Pairwise (fun a b => a.outMs < b.inMs) → mergeLoop c l = c :: l := by
  intro l
  induction l with
  | nil => intro c _ _; rfl
  | cons x rest ih =>
    intro c h hp
    have hx := h x (List.mem_cons_self _ _)
    rcases List.pairwise_cons.mp hp with ⟨hx2, hrest⟩
    rw [mergeLoop, if_neg (by omega : ¬ x.inMs ≤ c.outMs), ih x hx2 hrest]

theorem mergeStart_of_gapped {l : List CutRangeMs}
    (hp : l.Pairwise (fun a b => a.outMs < b.inMs)) : mergeStart l = l := by
  cases l with
  | nil => rfl
  | cons c rest =>
    rcases List.pairwise_cons.mp hp with ⟨hc, hrest⟩
    exact mergeLoop_of_gapped rest c hc hrest

theorem normalizeCuts_eq_nil_of_nonpos (cuts : List CutRangeMs) (d : Int)
    (hd : ¬ 0 < d) : normalizeCuts cuts d = [] := by
  rcases normalizeCuts_good cuts d with ⟨_, hb⟩
  cases hNe : normalizeCuts cuts d with
  | nil => rfl
  | cons c rest =>
    exfalso
    have h1 := hb c (by rw [hNe]; exact List.mem_cons_self _ _)
    rw [if_neg hd] at h1
    omega

theorem computeKeptDurationMs_eq_max (d : Int) (cs : List CutRangeMs) :
    computeKeptDurationMs d cs =
      max 0 ((if 0 < d then d else 0) -
        cs.foldl (fun sum cut => sum + (cut.outMs - cut.inMs)) 0) := by
  show (if 0 < (if 0 < d then d else 0) -
      cs.foldl (fun sum cut => sum + (cut.outMs - cut.inMs)) 0 then
      (if 0 < d then d else 0) -
        cs.foldl (fun sum cut => sum + (cut.outMs - cut.inMs)) 0 else 0) =
    max 0 ((if 0 < d then d else 0) -
      cs.foldl (fun sum cut => sum + (cut.outMs - cut.inMs)) 0)
  generalize (if 0 < d then d else 0) -
    cs.foldl (fun sum cut => sum + (cut.outMs - cut.inMs)) 0 = y
  split <;> omega

theorem computeKeptRanges_nonpos (d : Int) (hd : ¬ 0 < d) (cs : List CutRangeMs) :
    computeKeptRanges d cs = [] := by
  show (if (if 0 < d then d else 0) = 0 then []
    else if cs.isEmpty = true then [CutRangeMs.mk 0 (if 0 < d then d else 0)]
    else keptGo (if 0 < d then d else 0) 0 cs) = []
  rw [if_neg hd]
  rfl

theorem computeKeptRanges_pos_nil (d : Int) (hd : 0 < d) :
    computeKeptRanges d [] = [⟨0, d⟩] := by
  show (if (if 0 < d then d else 0) = 0 then []
    else if ([] : List CutRangeMs).isEmpty = true then
      [CutRangeMs.mk 0 (if 0 < d then d else 0)]
    else keptGo (if 0 < d then d else 0) 0 []) = [CutRangeMs.mk 0 d]
  rw [if_pos hd, if_neg (by omega : ¬ d = 0)]
  rfl

theorem computeKeptRanges_pos (d : Int) (hd : 0 < d) (cs : List CutRangeMs)
    (hne : cs ≠ []) : computeKeptRanges d cs = keptGo d 0 cs := by
  show (if (if 0 < d then d else 0) = 0 then []
    else if cs.isEmpty = true then [CutRangeMs.mk 0 (if 0 < d then d else 0)]
    else keptGo (if 0 < d then d else 0) 0 cs) = keptGo d 0 cs
  rw [if_pos hd, if_neg (by omega : ¬ d = 0)]
  have hemp : cs.isEmpty = false := by
    cases cs with
    | nil => exact absurd rfl hne
    | cons x xs => rfl
  rw [hemp]
  rfl

/-! ### Claim theorems -/

/-- C2: for every cut list and every `durationMs`, the output of
`normalizeCuts(cuts, durationMs)` is sorted ascending by `inMs`, pairwise
non-overlapping, and every output range satisfies
`0 ≤ inMs < outMs ≤ durationMs`. -/
theorem normalizeCuts_canonical (cuts : List CutRangeMs) (d : Int) :
    (normalizeCuts cuts d).Pairwise (fun a b => a.inMs ≤ b.inMs) ∧
      (normalizeCuts cuts d).Pairwise (fun a b => a.outMs ≤ b.inMs) ∧
      ∀ c ∈ normalizeCuts cuts d, 0 ≤ c.inMs ∧ c.inMs < c.outMs ∧ c.outMs ≤ d := by
  rcases normalizeCuts_good cuts d with ⟨hp, hb⟩
  refine ⟨?_, hp.imp (fun h => le_of_lt h), ?_⟩
  · refine List.Pairwise.imp_of_mem ?_ hp
    intro a b ha _ hab
    have := hb a ha
    omega
  · intro c hc
    have h1 := hb c hc
    by_cases hd : 0 < d
    · rw [if_pos hd] at h1
      omega
    · rw [if_neg hd] at h1
      omega

/-- C10: `normalizeCuts` is idempotent — a normalized cut list is a fixed
point of normalization at the same duration. -/
theorem normalizeCuts_idempotent (cuts : List CutRangeMs) (d : Int) :
    normalizeCuts (normalizeCuts cuts d) d = normalizeCuts cuts d := by
  rcases normalizeCuts_good cuts d with ⟨hp, hb⟩
  set M : Int := if 0 < d then d else 0 with hM
  set N : List CutRangeMs := normalizeCuts cuts d with hN
  show mergeStart
      (sortCuts ((N.map (clampCut M)).filter (fun cut => decide (cut.inMs < cut.outMs)))) = N
  have hmap : N.map (clampCut M) = N := by
    have hcl : ∀ c ∈ N, clampCut M c = c := by
      intro c hc
      have h1 := hb c hc
      show CutRangeMs.mk (max 0 (min c.inMs M)) (max 0 (min c.outMs M)) = c
      rw [show max 0 (min c.inMs M) = c.inMs by omega,
        show max 0 (min c.outMs M) = c.outMs by omega]
    calc N.map (clampCut M) = N.map id := List.map_congr_left hcl
      _ = N := List.map_id N
  rw [hmap]
  have hfil : N.filter (fun cut => decide (cut.inMs < cut.outMs)) = N := by
    refine List.filter_eq_self.mpr ?_
    intro c hc
    rw [decide_eq_true_eq]
    exact (hb c hc).2.1
  rw [hfil]
  have hsortN : sortCuts N = N := by
    refine sortCuts_of_pairwise (List.Pairwise.imp_of_mem ?_ hp)
    intro a b ha _ hab
    have h1 := hb a ha
    simp only [cutLE, decide_eq_true_eq]
    omega
  rw [hsortN]
  exact mergeStart_of_gapped hp

/-- C6 counterexample: on a non-normalized (overlapping) cut list the two
sides differ — `computeKeptDurationMs(10, [⟨0,5⟩,⟨0,5⟩])` is `0` while the
ranges from `computeKeptRanges` span `5`. -/
theorem keptDuration_mismatch_cex :
    computeKeptDurationMs 10 [⟨0, 5⟩, ⟨0, 5⟩] = 0 ∧
      computeKeptDurationFromRanges (computeKeptRanges 10 [⟨0, 5⟩, ⟨0, 5⟩]) = 5 ∧
      ¬ computeKeptDurationMs 10 [⟨0, 5⟩, ⟨0, 5⟩] =
          computeKeptDurationFromRanges (computeKeptRanges 10 [⟨0, 5⟩, ⟨0, 5⟩]) := by
  decide

/-- C6 (amended to normalized input, the functions' documented
precondition): for every `durationMs` and cut list,
`computeKeptDurationMs` over the normalized cuts equals the sum of
`outMs - inMs` over `computeKeptRanges` of the normalized cuts, i.e.
`computeKeptDurationFromRanges` of that result. -/
theorem keptDuration_eq_fromRanges (d : Int) (cuts : List CutRangeMs) :
    computeKeptDurationMs d (normalizeCuts cuts d) =
      computeKeptDurationFromRanges (computeKeptRanges d (normalizeCuts cuts d)) := by
  rcases normalizeCuts_good cuts d with ⟨hp, hb⟩
  rw [computeKeptDurationMs_eq_max]
  by_cases hd : 0 < d
  · rw [if_pos hd]
    cases hNe : normalizeCuts cuts d with
    | nil =>
      rw [computeKeptRanges_pos_nil d hd, computeKeptDurationFromRanges_singleton,
        List.foldl_nil]
    | cons c rest =>
      rw [hNe] at hp hb
      rw [computeKeptRanges_pos d hd _ (by exact List.cons_ne_nil c rest)]
      rw [keptGo_sum d (c :: rest) 0 (by omega)
        (fun x hx => by
          have h1 := hb x hx
          rw [if_pos hd] at h1
          exact ⟨h1.2.1, h1.2.2⟩)
        (fun x hx => (hb x hx).1) hp]
      have hnn := computeKeptDurationFromRanges_nonneg (keptGo d 0 (c :: rest))
      rw [keptGo_sum d (c :: rest) 0 (by omega)
        (fun x hx => by
          have h1 := hb x hx
          rw [if_pos hd] at h1
          exact ⟨h1.2.1, h1.2.2⟩)
        (fun x hx => (hb x hx).1) hp] at hnn
      omega
  · rw [normalizeCuts_eq_nil_of_nonpos cuts d hd, computeKeptRanges_nonpos d hd,
      if_neg hd, List.foldl_nil]
    show max 0 (0 - 0) = computeKeptDurationFromRanges []
    rfl

/-- C8 counterexample: the first identity fails at `durationMs = 0` —
`computeKeptRanges(0, [])` is `[]`, not `[{0, 0}]`. -/
theorem computeKeptRanges_zeroDuration_cex :
    computeKeptRanges 0 ([] : List CutRangeMs) = [] ∧
      ¬ computeKeptRanges 0 ([] : List CutRangeMs) = [⟨0, 0⟩] := by
  decide

/-- C8 (amended to positive duration, matching the spec's
"if durationMs ≤ 0, returns empty"): for every `durationMs > 0`,
`computeKeptRanges(durationMs, [])` is the single full range and
`computeKeptRanges(durationMs, [{0, durationMs}])` is empty. -/
theorem computeKeptRanges_empty_and_full (d : Int) (hd : 0 < d) :
    computeKeptRanges d ([] : List CutRangeMs) = [⟨0, d⟩] ∧
      computeKeptRanges d [⟨0, d⟩] = [] := by
  constructor
  · exact computeKeptRanges_pos_nil d hd
  · rw [computeKeptRanges_pos d hd _ (List.cons_ne_nil _ _)]
    rw [keptGo, if_neg (by omega : ¬ (0 : Int) > 0)]
    rw [show max (0 : Int) (CutRangeMs.mk 0 d).outMs = d by
      show max (0 : Int) d = d
      omega]
    rw [keptGo, if_neg (by omega : ¬ d < d)]
    rfl

/-- C8 witness: the amended identities evaluated at `durationMs = 7`. -/
theorem computeKeptRanges_empty_and_full_witness :
    computeKeptRanges 7 ([] : List CutRangeMs) = [⟨0, 7⟩] ∧
      computeKeptRanges 7 [⟨0, 7⟩] = [] :=
  computeKeptRanges_empty_and_full 7 (by decide)

/-- C1 counterexample: the round-trip law fails at the left endpoint of a
kept range that follows a cut. With duration `10` and cut `{2,5}`, the
kept ranges are `[{0,2},{5,10}]`; `sourceMs = 5` lies inside the kept
range `{5,10}` (and inside no half-open cut), yet
`mapSourceMsToKeptMs(5) = 2` and mapping `2` back yields `2`, not `5`. -/
theorem mapRoundTrip_cex :
    computeKeptRanges 10 (normalizeCuts [⟨2, 5⟩] 10) = [⟨0, 2⟩, ⟨5, 10⟩] ∧
      (mapSourceMsToKeptMs 5 (computeKeptRanges 10 (normalizeCuts [⟨2, 5⟩] 10))).bind
        (fun keptMs =>
          mapKeptMsToSourceMs keptMs (computeKeptRanges 10 (normalizeCuts [⟨2, 5⟩] 10))) =
        some 2 ∧
      ¬ (mapSourceMsToKeptMs 5 (computeKeptRanges 10 (normalizeCuts [⟨2, 5⟩] 10))).bind
          (fun keptMs =>
            mapKeptMsToSourceMs keptMs (computeKeptRanges 10 (normalizeCuts [⟨2, 5⟩] 10))) =
        some 5 := by
  decide

/-- C1 (amended): the round trip
`mapKeptMsToSourceMs(mapSourceMsToKeptMs(sourceMs, ranges), ranges)`
returns `sourceMs` for every `sourceMs` that lies inside a kept range of
`computeKeptRanges(duration, normalizeCuts(cuts, duration))` and is not
the left endpoint of a kept range other than the first — i.e. for
`inMs < sourceMs < outMs` of any kept range, and for the first kept
range's own `inMs`. -/
theorem mapRoundTrip (d : Int) (cuts : List CutRangeMs) (s : Int)
    (h : (∃ r ∈ computeKeptRanges d (normalizeCuts cuts d), r.inMs < s ∧ s < r.outMs) ∨
         (∃ r, (computeKeptRanges d (normalizeCuts cuts d)).head? = some r ∧ s = r.inMs)) :
    (mapSourceMsToKeptMs s (computeKeptRanges d (normalizeCuts cuts d))).bind
      (fun keptMs => mapKeptMsToSourceMs keptMs (computeKeptRanges d (normalizeCuts cuts d))) =
      some s := by
  rcases computeKeptRanges_good d cuts with ⟨hp, hb⟩
  rcases h with ⟨r, hr, hin, hout⟩ | ⟨r, hhead, rfl⟩
  · have hb0 := hb r hr
    rcases mapGo_roundtrip (computeKeptRanges d (normalizeCuts cuts d)) hp
        (fun x hx => (hb x hx).2.1) s r hr hin (by omega) with ⟨m, hm, hmpos, hk⟩
    rw [mapSourceMsToKeptMs, if_neg (by omega : ¬ s < 0), hm]
    show mapKeptMsToSourceMs m (computeKeptRanges d (normalizeCuts cuts d)) = some s
    rw [mapKeptMsToSourceMs, if_neg (by omega : ¬ m < 0), hk]
  · cases hE : computeKeptRanges d (normalizeCuts cuts d) with
    | nil =>
      rw [hE] at hhead
      exact absurd hhead (by simp)
    | cons r0 rest =>
      rw [hE] at hhead
      have hr0 : r0 = r := by
        rw [List.head?_cons] at hhead
        exact Option.some.inj hhead
      subst hr0
      have hb0 := hb r0 (by rw [hE]; exact List.mem_cons_self _ _)
      rcases mapGo_roundtrip_head r0 rest hb0.2.1 with ⟨h1, h2⟩
      rw [mapSourceMsToKeptMs, if_neg (by omega : ¬ r0.inMs < 0), h1]
      show mapKeptMsToSourceMs 0 (r0 :: rest) = some r0.inMs
      rw [mapKeptMsToSourceMs, if_neg (by omega : ¬ (0 : Int) < 0), h2]

/-- C1 witness: the amended round trip evaluated at duration `10`, cuts
`[{2,5}]`, `sourceMs = 6` (interior of the kept range `{5,10}`). -/
theorem mapRoundTrip_witness :
    (mapSourceMsToKeptMs 6 (computeKeptRanges 10 (normalizeCuts [⟨2, 5⟩] 10))).bind
      (fun keptMs =>
        mapKeptMsToSourceMs keptMs (computeKeptRanges 10 (normalizeCuts [⟨2, 5⟩] 10))) =
      some 6 :=
  mapRoundTrip 10 [⟨2, 5⟩] 6 (by decide)

/-- C5 counterexample: at `sourceMs` exactly equal to a cut's `inMs` the
map does not return `null`. With duration `10` and normalized cut `{2,5}`,
`mapSourceMsToKeptMs(2, computeKeptRanges(10, [{2,5}]))` is `2`, because
the walk accepts `sourceMs ≤ range.outMs` (a closed right endpoint) on the
kept range `{0,2}`. -/
theorem mapSourceInsideCut_cex :
    normalizeCuts [⟨2, 5⟩] 10 = [⟨2, 5⟩] ∧
      mapSourceMsToKeptMs 2 (computeKeptRanges 10 (normalizeCuts [⟨2, 5⟩] 10)) = some 2 ∧
      ¬ mapSourceMsToKeptMs 2 (computeKeptRanges 10 (normalizeCuts [⟨2, 5⟩] 10)) = none := by
  decide

/-- C5 (amended to the open interior of a cut): for every duration and
cut list, and every `sourceMs` strictly inside a normalized cut
(`inMs < sourceMs < outMs`), `mapSourceMsToKeptMs` over the kept ranges
returns `null`. The claim's half-open form fails only at
`sourceMs = inMs` (see the counterexample); the amendment asserts
nothing about boundary points, whose image depends on whether a kept
range precedes the cut. -/
theorem mapSourceInsideCut_none (d : Int) (cuts : List CutRangeMs) (s : Int)
    (cut : CutRangeMs) (hmem : cut ∈ normalizeCuts cuts d)
    (h1 : cut.inMs < s) (h2 : s < cut.outMs) :
    mapSourceMsToKeptMs s (computeKeptRanges d (normalizeCuts cuts d)) = none := by
  rcases normalizeCuts_good cuts d with ⟨hp, hb⟩
  rw [mapSourceMsToKeptMs]
  by_cases hs : s < 0
  · rw [if_pos hs]
  · rw [if_neg hs]
    by_cases hd : 0 < d
    · cases hNe : normalizeCuts cuts d with
      | nil =>
        rw [hNe] at hmem
        exact absurd hmem (List.not_mem_nil cut)
      | cons c rest =>
        rw [← hNe]
        rw [computeKeptRanges_pos d hd _ (by rw [hNe]; exact List.cons_ne_nil c rest)]
        refine mapSrcGo_none s _ 0 ?_
        intro r hr
        have havoid := keptGo_avoid d (normalizeCuts cuts d) 0 hp
          (fun x hx => (hb x hx).2.1) r hr cut hmem
        omega
    · rw [normalizeCuts_eq_nil_of_nonpos cuts d hd] at hmem
      exact absurd hmem (List.not_mem_nil cut)

/-- C5 witness: duration `10`, cuts `[{2,5}]`, `sourceMs = 3` strictly
inside the cut maps to `null`. -/
theorem mapSourceInsideCut_none_witness :
    mapSourceMsToKeptMs 3 (computeKeptRanges 10 (normalizeCuts [⟨2, 5⟩] 10)) = none :=
  mapSourceInsideCut_none 10 [⟨2, 5⟩] 3 ⟨2, 5⟩ (by decide) (by decide) (by decide)

/-- C7: for every project whose source duration is 60000 ms and every cut
spanning `[5000, 8000]`, `buildClipPlan` yields a plan whose
`computeKeptRangesForPlan` is exactly `[{5000, 8000}]`, whatever the
project's own cut list holds (the clip plan carries `cuts := []` and clip
mode never reads `plan.cuts`). -/
theorem buildClipPlan_keptRanges (p : ProjectDoc) (c : Cut)
    (hd : p.source.durationMs = 60000) (hin : c.inMs = 5000) (hout : c.outMs = 8000) :
    computeKeptRangesForPlan (buildClipPlan p c) = [⟨5000, 8000⟩] := by
  show (let maxDuration := if 0 < p.source.durationMs then p.source.durationMs else 0
    if maxDuration = 0 then []
    else
      let inMs := max 0 (min c.inMs maxDuration)
      let outMs := max 0 (min c.outMs maxDuration)
      if outMs ≤ inMs then [] else [{ inMs := inMs, outMs := outMs }]) =
    [CutRangeMs.mk 5000 8000]
  rw [hd, hin, hout]
  decide

/-- C7 witness: a concrete 60000 ms project with an unrelated cut list and
the `{5000,8000}` cut. -/
theorem buildClipPlan_keptRanges_witness :
    computeKeptRangesForPlan
      (buildClipPlan
        ⟨"p1", ⟨⟨"local", "asset-1"⟩, "clip.mp4", 60000, 1920, 1080⟩,
          ⟨[⟨"c0", 100, 900, none⟩]⟩⟩
        ⟨"c1", 5000, 8000, none⟩) = [⟨5000, 8000⟩] :=
  buildClipPlan_keptRanges _ _ rfl rfl rfl

/-- C3: the code contradicts the claim for clip-mode plans. For the clip
plan `{sourceDurationMs: 60000, cuts: [], mode: clip, clipRangeMs:
{5000,8000}}`, `exportFull` reports `durationMs = 60000` — it computes
`computeKeptDurationMs(sourceDurationMs, plan.cuts)` and never consults
`plan.mode`/`clipRangeMs` — while the plan's kept ranges (which the
encoding backends honor through `computeKeptRangesForPlan`) span 3000 ms,
the expected output duration. -/
theorem exportFull_clipDuration_bug :
    (exportFull
        ⟨false, fun _ _ => Except.error "unavailable",
          fun _ _ => Except.error "unavailable", "2026-01-01T00:00:00.000Z",
          fun _ => "asset-2"⟩
        ⟨"asset-1", 60000, [], .clip, some ⟨5000, 8000⟩⟩
        ⟨.mp4, .standard, true⟩).durationMs = 60000 ∧
      computeKeptDurationFromRanges
        (computeKeptRangesForPlan ⟨"asset-1", 60000, [], .clip, some ⟨5000, 8000⟩⟩) =
        3000 ∧
      ¬ (60000 : Int) = 3000 := by
  refine ⟨rfl, by decide, by decide⟩

/-- C4: whenever the WebCodecs capability probe fails, or both real
backends throw, `exportFull` still produces a result (the model is total —
in particular `createPlaceholderExport` cannot fail) whose `engine` is
`mediaRecorder` or `placeholder`. -/
theorem exportFull_fallback_engine (env : EncodeEnv) (plan : RenderPlan)
    (request : ExportRequest)
    (h : env.canEncodeWebmWithWebCodecs = false ∨
         ((∃ e, env.webcodecsWebm plan request = Except.error e) ∧
          (∃ e, env.mediaRecorder plan request = Except.error e))) :
    (exportFull env plan request).engine = ExportEngine.mediaRecorder ∨
      (exportFull env plan request).engine = ExportEngine.placeholder := by
  have hengine : (exportFull env plan request).engine =
      (encodeWithFallbacks env plan request
        (computeKeptDurationMs plan.sourceDurationMs plan.cuts)).engine := rfl
  rw [hengine, encodeWithFallbacks]
  rcases h with hprobe | ⟨⟨e1, hw⟩, ⟨e2, hm⟩⟩
  · rw [if_neg (by simp [hprobe])]
    cases hmr : env.mediaRecorder plan request with
    | ok mime => exact Or.inl rfl
    | error e => exact Or.inr rfl
  · by_cases hc : request.container = ExportContainer.webm ∧
        env.canEncodeWebmWithWebCodecs = true
    · rw [if_pos hc, hw, hm]
      exact Or.inr rfl
    · rw [if_neg hc, hm]
      exact Or.inr rfl

/-- C4 witness: probe fails and MediaRecorder succeeds — the engine is
`mediaRecorder`. -/
theorem exportFull_fallback_engine_witness :
    (exportFull
        ⟨false, fun _ _ => Except.error "probe failed",
          fun _ _ => Except.ok "video/mp4", "2026-01-01T00:00:00.000Z",
          fun _ => "asset-3"⟩
        ⟨"asset-1", 1000, [], .full, none⟩
        ⟨.webm, .draft, true⟩).engine = ExportEngine.mediaRecorder ∨
      (exportFull
        ⟨false, fun _ _ => Except.error "probe failed",
          fun _ _ => Except.ok "video/mp4", "2026-01-01T00:00:00.000Z",
          fun _ => "asset-3"⟩
        ⟨"asset-1", 1000, [], .full, none⟩
        ⟨.webm, .draft, true⟩).engine = ExportEngine.placeholder :=
  exportFull_fallback_engine _ _ _ (Or.inl rfl)

/-- C9: on a transcript all of whose segments carry point timestamps
(`endMs === startMs`), `handleGenerateShorts` reports the blocked
precondition as the explicit error state "Need VTT/SRT timestamps." — it
never returns an empty suggestion list as a success. -/
theorem shorts_blocked_on_point_timestamps (t : Transcript)
    (generate : Transcript → Except String (List ShortSuggestion))
    (h : ∀ s ∈ t.segments, s.endMs = some s.startMs) :
    handleGenerateShorts (some t) generate =
        ShortsOutcome.blocked "Need VTT/SRT timestamps." ∧
      ∀ l, ¬ handleGenerateShorts (some t) generate = ShortsOutcome.generated l := by
  have hts : hasTimestampedTranscript t.segments = false := by
    rw [hasTimestampedTranscript]
    rw [List.any_eq_false]
    intro s hs
    rw [segmentEndAfterStart, h s hs]
    simp
  constructor
  · show (if hasTimestampedTranscript t.segments = true then _ else
      ShortsOutcome.blocked "Need VTT/SRT timestamps.") =
      ShortsOutcome.blocked "Need VTT/SRT timestamps."
    rw [hts]
    rfl
  · intro l hcontra
    rw [show handleGenerateShorts (some t) generate =
        (if hasTimestampedTranscript t.segments = true then
          match generate t with
          | .ok suggestions => ShortsOutcome.generated suggestions
          | .error message => ShortsOutcome.failed message
        else ShortsOutcome.blocked "Need VTT/SRT timestamps.") from rfl, hts] at hcontra
    exact absurd hcontra (by simp)

/-- C9 witness: a one-segment transcript with `endMs = startMs` is
blocked even when the engine would succeed with an empty list. -/
theorem shorts_blocked_on_point_timestamps_witness :
    handleGenerateShorts (some ⟨[⟨"s1", 1000, some 1000, "hello"⟩]⟩)
        (fun _ => Except.ok []) =
      ShortsOutcome.blocked "Need VTT/SRT timestamps." ∧
      ∀ l, ¬ handleGenerateShorts (some ⟨[⟨"s1", 1000, some 1000, "hello"⟩]⟩)
          (fun _ => Except.ok []) = ShortsOutcome.generated l :=
  shorts_blocked_on_point_timestamps _ _
    (by
      intro s hs
      rw [List.mem_singleton] at hs
      subst hs
      rfl)

end Hammer
